import Mathlib

/-!
Shallow embedding of the managed request pipeline and pagination iterator of
pypco (class PCO in pco.py): URL normalization, timeout retry, rate-limit
retry, response interpretation, and the include-resolving iterator.
-/

namespace Pypco

/-- Characters of the default api_base configuration value,
https://api.planningcenteronline.com . -/
def apiBase : List Char :=
  ['h','t','t','p','s',':','/','/','a','p','i','.',
   'p','l','a','n','n','i','n','g','c','e','n','t','e','r','o','n','l','i','n','e',
   '.','c','o','m']

/-- All of apiBase except its final character m. -/
def apiBaseCore : List Char :=
  ['h','t','t','p','s',':','/','/','a','p','i','.',
   'p','l','a','n','n','i','n','g','c','e','n','t','e','r','o','n','l','i','n','e',
   '.','c','o']

/-- Literal embedding of the substitution performed in
_do_url_managed_request by re.subn with pattern (?<!:)[/]{2,} and
replacement / : scanning left to right, a maximal run of two or more
slashes whose first slash is not immediately preceded by a colon is
replaced by one slash, and scanning resumes after the run.  The first
argument is the character immediately before the current position in the
input (none at the start of the string). -/
def subnCollapse (prev : Option Char) (l : List Char) : List Char :=
  match l with
  | [] => []
  | c :: rest =>
    if c = '/' ∧ prev ≠ some ':' ∧ rest.head? = some '/' then
      '/' :: subnCollapse (some '/') (rest.dropWhile (fun d => d == '/'))
    else
      c :: subnCollapse (some c) rest
termination_by l.length
decreasing_by
  · exact Nat.lt_succ_of_le (List.Sublist.length_le (List.dropWhile_sublist _))
  · exact Nat.lt_succ_self _

/-- Stepwise reformulation of subnCollapse, convenient for structural
induction: a slash is dropped exactly when the following character is also
a slash and the character before the run start is not a colon.  It is
proved equal to subnCollapse below. -/
def collapseSlashes (prev : Option Char) (l : List Char) : List Char :=
  match l with
  | [] => []
  | c :: rest =>
    if c = '/' ∧ prev ≠ some ':' ∧ rest.head? = some '/' then
      collapseSlashes prev rest
    else
      c :: collapseSlashes (some c) rest

/-- Decides that no position of the list starts a collapsible slash run:
no slash whose preceding character is not a colon is followed by another
slash. -/
def noRun (prev : Option Char) (l : List Char) : Bool :=
  match l with
  | [] => true
  | c :: rest =>
    if c = '/' ∧ prev ≠ some ':' ∧ rest.head? = some '/' then false
    else noRun (some c) rest

/-- URL cleaning performed by _do_url_managed_request for non-upload
requests: prefix the URL with api_base when it does not already start with
it, then apply the slash-collapsing substitution. -/
def normalizeUrl (url : List Char) : List Char :=
  subnCollapse none (if apiBase.isPrefixOf url then url else apiBase ++ url)

/-- Characters after the first question mark of a URL: its query string. -/
def queryPart (s : List Char) : List Char :=
  (s.dropWhile (fun c => c != '?')).tail


/-- HTTP response as observed by the wrapper layers: status code, the
Retry-After header value (seconds, as an integer), and the raw body text. -/
structure Response where
  status : Nat
  retryAfter : Nat
  text : String
deriving DecidableEq

/-- Outcome of one transport invocation performed by _do_request: either a
response or a requests.exceptions.Timeout. -/
inductive Attempt where
  | timeout
  | ok (r : Response)
deriving DecidableEq

/-- Data carried by a PCORequestTimeoutException: the request URL and how
many attempts timed out; the exception message is formatted from these. -/
structure PCORequestTimeoutException where
  url : String
  tries : Nat
deriving DecidableEq

/-- Embedding of _do_timeout_managed_request.  The function attempts gives
the outcome of the i-th transport invocation, and count is the running
timeout_count, 0 at the initial call; timeout_count is compared for
equality against the configured timeout_retries after each increment.  The
fuel argument bounds the iterations of the while-True loop so that the
embedding is total: the value none means the loop was still running when
fuel ran out.  The second component of a returned pair counts transport
invocations performed. -/
def doTimeoutManagedRequest (timeoutRetries : Int) (url : String)
    (attempts : Nat → Attempt) :
    Nat → Nat → Option (Except PCORequestTimeoutException Response × Nat)
  | 0, _ => none
  | fuel + 1, count =>
    match attempts count with
    | .ok r => some (.ok r, 1)
    | .timeout =>
      if ((count + 1 : Nat) : Int) = timeoutRetries then
        some (.error ⟨url, count + 1⟩, 1)
      else
        match doTimeoutManagedRequest timeoutRetries url attempts fuel (count + 1) with
        | none => none
        | some (res, n) => some (res, n + 1)

/-- Embedding of _do_ratelimit_managed_request.  The function responses
gives the response produced by the timeout-managed layer on its i-th call;
fuel bounds the while-True loop, with none meaning the loop was still
running when fuel ran out.  On normal return the second component lists, in
order, the seconds slept for each 429 encountered, each value read as an
integer from the Retry-After header of that 429 response. -/
def doRatelimitManagedRequest (responses : Nat → Response) :
    Nat → Nat → Option (Response × List Nat)
  | 0, _ => none
  | fuel + 1, i =>
    if (responses i).status = 429 then
      match doRatelimitManagedRequest responses fuel (i + 1) with
      | none => none
      | some (res, sleeps) => some (res, (responses i).retryAfter :: sleeps)
    else
      some (responses i, [])

/-- Exceptions that can surface from _do_url_managed_request into
request_response: the PCORequestTimeoutException raised by the timeout
layer, or any other exception from the lower layers, identified here by its
message. -/
inductive LowerExc where
  | timeoutExceeded (e : PCORequestTimeoutException)
  | other (msg : String)
deriving DecidableEq

/-- Outcome of the call to _do_url_managed_request made inside
request_response: a response, or a raised exception. -/
inductive UrlLayerOutcome where
  | ok (r : Response)
  | exc (e : LowerExc)
deriving DecidableEq

/-- Errors that request_response can raise: PCOUnexpectedRequestException
carrying a message, PCORequestException carrying status code, message and
response body, and PCORequestTimeoutException.  The last is listed in the
Raises section of the docstring of request_response; whether the code can
actually deliver it is settled by the theorems below. -/
inductive PCOCallError where
  | unexpected (msg : String)
  | request (statusCode : Nat) (msg : String) (responseBody : String)
  | timeoutExceeded (e : PCORequestTimeoutException)
deriving DecidableEq

/-- Message of the Python exception object, as str(err) would return it. -/
def excMessage : LowerExc → String
  | .timeoutExceeded e =>
      "The request to " ++ e.url ++ " timed out after " ++ toString e.tries ++ " tries."
  | .other msg => msg

/-- Message of the requests.HTTPError raised by raise_for_status, a string
mentioning the status code. -/
def httpErrorMessage (status : Nat) : String :=
  toString status ++ " Error"

/-- Embedding of request_response.  The try/except around
_do_url_managed_request catches every exception and wraps it into
PCOUnexpectedRequestException; raise_for_status then raises HTTPError for
status codes 400 to 599, converted to PCORequestException carrying the
status code, the error message and the response body text. -/
def request_response (outcome : UrlLayerOutcome) : Except PCOCallError Response :=
  match outcome with
  | .exc e => .error (.unexpected (excMessage e))
  | .ok r =>
    if 400 ≤ r.status ∧ r.status ≤ 599 then
      .error (.request r.status (httpErrorMessage r.status) r.text)
    else
      .ok r

/-- A relationship reference: a dict with type and id entries. -/
structure Ref where
  rtype : String
  rid : String
deriving DecidableEq

/-- The data entry of one relationship of an item: None, a single reference
dict, or a list of reference dicts. -/
inductive RelData where
  | null
  | single (ref : Ref)
  | many (refs : List Ref)
deriving DecidableEq

/-- A resource object: type, id, opaque attributes and, when the
relationships key is present, an association list from relationship name to
its data entry, kept in declaration order as Python dicts preserve
insertion order. -/
structure Resource where
  rtype : String
  rid : String
  attrs : String
  relationships : Option (List (String × RelData))
deriving DecidableEq

/-- One page of an API listing response, restricted to the parts iterate
reads: the data sequence, the top-level included sequence, the optional
can_include and parent entries of the top-level meta dict, and whether the
top-level links dict contains a next entry. -/
structure Page where
  data : List Resource
  included : List Resource
  metaCanInclude : Option String
  metaParent : Option String
  linksNext : Bool
deriving DecidableEq

/-- The record dict yielded by iterate for one item of a page. -/
structure Record where
  rdata : Resource
  rincluded : List Resource
  rmeta : List (String × String)
deriving DecidableEq

/-- An include matches a reference when both the type and the id entries
are equal. -/
def refMatches (ref : Ref) (inc : Resource) : Bool :=
  inc.rtype == ref.rtype && inc.rid == ref.rid

/-- Includes appended for one relationship data entry, following the loops
in iterate: a single reference scans included once, appending every match;
a list of references scans included once per reference, in list order;
None contributes nothing. -/
def includesFor (page : Page) : RelData → List Resource
  | .null => []
  | .single ref => page.included.filter (fun inc => refMatches ref inc)
  | .many refs => refs.flatMap (fun ref => page.included.filter (fun inc => refMatches ref inc))

/-- Embedding of the per-item record construction in iterate.  The two
source statements that mention the meta keys have the form
record[...][...]: response[...][...] with a colon, that is, they are Python
annotated assignments without a right-hand side: they bind nothing at run
time, so the meta dict of the record stays empty. -/
def processRecord (page : Page) (cur : Resource) : Record :=
  { rdata := cur,
    rincluded :=
      match cur.relationships with
      | none => []
      | some rels => rels.flatMap (fun kv => includesFor page kv.2),
    rmeta := [] }

/-- Embedding of the iterate generator.  The function server maps an offset
to the page returned by the GET issued at that offset, with per_page and
the other query parameters held fixed; fuel bounds the pagination loop.
The result lists the records yielded in order, paired with the number of
GET requests issued.  When fuel runs out before the loop ends, the records
collected so far are returned; the theorems below pin down results that are
the same for every sufficient fuel. -/
def iterateAux (server : Nat → Page) (perPage : Nat) : Nat → Nat → List Record × Nat
  | 0, _ => ([], 0)
  | fuel + 1, offset =>
    let page := server offset
    let recs := page.data.map (processRecord page)
    if page.linksNext then
      let rest := iterateAux server perPage fuel (offset + perPage)
      (recs ++ rest.1, rest.2 + 1)
    else
      (recs, 1)

/-- Spec-side reading of one relationship data entry: the declared
references in declaration order; a single reference yields one reference, a
list yields them in list order. -/
def refsOf : RelData → List Ref
  | .null => []
  | .single ref => [ref]
  | .many refs => refs

/-- All relationship references declared by an item, in
relationship-then-list order. -/
def itemRefs (cur : Resource) : List Ref :=
  match cur.relationships with
  | none => []
  | some rels => rels.flatMap (fun kv => refsOf kv.2)

/-- Included list as the spec words it: for every relationship reference,
taken in relationship-then-list order, the objects of the top-level
included sequence that match it by exact type and id equality. -/
def specIncluded (page : Page) (cur : Resource) : List Resource :=
  (itemRefs cur).flatMap (fun ref => page.included.filter (fun inc => refMatches ref inc))

/-- Concrete URL whose query string contains a double slash. -/
def uC8 : List Char := apiBase ++ ['/','x','?','a','=','/','/','b']

/-- Concrete URL whose query string contains no slash run. -/
def uW8 : List Char := apiBase ++ ['/','x','?','a','=','b']

/-- Concrete relative URL. -/
def uW7 : List Char := ['/','p','e','o','p','l','e']

/-- Concrete successful response. -/
def respOk : Response := { status := 200, retryAfter := 0, text := "payload" }

/-- Concrete 429 response with Retry-After 2. -/
def resp429 : Response := { status := 429, retryAfter := 2, text := "throttled" }

/-- Concrete 404 response. -/
def resp404 : Response := { status := 404, retryAfter := 0, text := "not found" }

/-- Transport outcomes: two timeouts, then a success. -/
def attemptsW : Nat → Attempt := fun i => if i < 2 then Attempt.timeout else Attempt.ok respOk

/-- Transport outcomes: every attempt times out. -/
def attemptsT : Nat → Attempt := fun _ => Attempt.timeout

/-- Lower-layer responses: three 429s, then a success. -/
def responsesW : Nat → Response := fun i => if i < 3 then resp429 else respOk

/-- An item without a relationships key. -/
def resPlain : Resource :=
  { rtype := "Person", rid := "1", attrs := "alice", relationships := none }

/-- An included email object. -/
def incEmail : Resource :=
  { rtype := "Email", rid := "10", attrs := "e10", relationships := none }

/-- An item referencing the email include. -/
def resWithRel : Resource :=
  { rtype := "Person", rid := "2", attrs := "bob",
    relationships := some [("emails", RelData.single ⟨"Email", "10"⟩)] }

/-- A page whose top-level meta contains both can_include and parent. -/
def pageC4 : Page :=
  { data := [resPlain], included := [],
    metaCanInclude := some "emails", metaParent := some "Organization",
    linksNext := false }

/-- First page of the two-page scenario; its links contain next. -/
def page1C6 : Page :=
  { data := [resPlain, resWithRel], included := [incEmail],
    metaCanInclude := none, metaParent := none, linksNext := true }

/-- Second page of the two-page scenario; its links have no next. -/
def page2C6 : Page :=
  { data := [incEmail], included := [],
    metaCanInclude := none, metaParent := none, linksNext := false }

/-- Server of the two-page scenario: page 1 at offset 0, page 2 above. -/
def serverC6 : Nat → Page := fun offset => if offset = 0 then page1C6 else page2C6

end Pypco

namespace Pypco

theorem collapseSlashes_nil (prev : Option Char) : collapseSlashes prev [] = [] := rfl

theorem collapseSlashes_cons (prev : Option Char) (c : Char) (rest : List Char) :
    collapseSlashes prev (c :: rest) =
      if c = '/' ∧ prev ≠ some ':' ∧ rest.head? = some '/' then
        collapseSlashes prev rest
      else
        c :: collapseSlashes (some c) rest := rfl

theorem noRun_cons (prev : Option Char) (c : Char) (rest : List Char) :
    noRun prev (c :: rest) =
      if c = '/' ∧ prev ≠ some ':' ∧ rest.head? = some '/' then false
      else noRun (some c) rest := rfl

/-- On a list starting with a slash, with a non-colon preceding character,
collapseSlashes produces one slash and continues after the whole leading
run of slashes. -/
theorem collapseSlashes_run (rest : List Char) : ∀ prev : Option Char,
    prev ≠ some ':' → rest.head? = some '/' →
    collapseSlashes prev rest =
      '/' :: collapseSlashes (some '/') (rest.dropWhile (fun d => d == '/')) := by
  induction rest with
  | nil => intro prev _ h; simp at h
  | cons c rest' ih =>
    intro prev hprev hhead
    simp only [List.head?_cons, Option.some.injEq] at hhead
    subst hhead
    by_cases h2 : rest'.head? = some '/'
    · rw [collapseSlashes_cons, if_pos ⟨rfl, hprev, h2⟩, ih prev hprev h2]
      simp [List.dropWhile_cons]
    · rw [collapseSlashes_cons, if_neg (by simp [h2])]
      have hdrop : rest'.dropWhile (fun d => d == '/') = rest' := by
        cases rest' with
        | nil => rfl
        | cons d r =>
          simp only [List.head?_cons, Option.some.injEq] at h2
          simp [List.dropWhile_cons, h2]
      simp [List.dropWhile_cons, hdrop]

/-- The literal regex embedding agrees with the stepwise one. -/
theorem subnCollapse_eq_aux (n : Nat) : ∀ (l : List Char), l.length ≤ n →
    ∀ prev, subnCollapse prev l = collapseSlashes prev l := by
  induction n with
  | zero =>
    intro l hl prev
    have : l = [] := List.length_eq_zero.mp (Nat.le_zero.mp hl)
    subst this
    rw [subnCollapse, collapseSlashes]
  | succ n ih =>
    intro l hl prev
    match l with
    | [] => rw [subnCollapse, collapseSlashes]
    | c :: rest =>
      rw [subnCollapse]
      by_cases h : c = '/' ∧ prev ≠ some ':' ∧ rest.head? = some '/'
      · rw [if_pos h]
        obtain ⟨hc, hprev, hhead⟩ := h
        subst hc
        rw [collapseSlashes_cons, if_pos ⟨rfl, hprev, hhead⟩,
          collapseSlashes_run rest prev hprev hhead]
        have hlen : (rest.dropWhile (fun d => d == '/')).length ≤ n := by
          have h1 := List.Sublist.length_le (List.dropWhile_sublist (l := rest) (fun d => d == '/'))
          simp only [List.length_cons] at hl
          omega
        rw [ih _ hlen (some '/')]
      · rw [if_neg h, collapseSlashes_cons, if_neg h]
        have hlen : rest.length ≤ n := by
          simp only [List.length_cons] at hl
          omega
        rw [ih _ hlen (some c)]

theorem subnCollapse_eq (prev : Option Char) (l : List Char) :
    subnCollapse prev l = collapseSlashes prev l :=
  subnCollapse_eq_aux l.length l (Nat.le_refl _) prev

/-- Lists with no collapsible run are fixed by collapseSlashes. -/
theorem collapseSlashes_of_noRun : ∀ (l : List Char) (prev : Option Char),
    noRun prev l = true → collapseSlashes prev l = l := by
  intro l
  induction l with
  | nil => intro prev _; rfl
  | cons c rest ih =>
    intro prev h
    rw [noRun_cons] at h
    by_cases hc : c = '/' ∧ prev ≠ some ':' ∧ rest.head? = some '/'
    · rw [if_pos hc] at h; cases h
    · rw [if_neg hc] at h
      rw [collapseSlashes_cons, if_neg hc, ih (some c) h]

/-- collapseSlashes does not create a leading slash where there was none. -/
theorem collapseSlashes_head_ne_slash (prev : Option Char) (l : List Char)
    (h : l.head? ≠ some '/') : (collapseSlashes prev l).head? ≠ some '/' := by
  cases l with
  | nil => simp [collapseSlashes_nil]
  | cons c rest =>
    have h' : c ≠ '/' := by simpa using h
    rw [collapseSlashes_cons, if_neg (by simp [h'])]
    simp [h']

/-- The output of collapseSlashes has no collapsible run left. -/
theorem noRun_collapseSlashes : ∀ (l : List Char) (prev : Option Char),
    noRun prev (collapseSlashes prev l) = true := by
  intro l
  induction l with
  | nil => intro prev; rfl
  | cons c rest ih =>
    intro prev
    by_cases hc : c = '/' ∧ prev ≠ some ':' ∧ rest.head? = some '/'
    · rw [collapseSlashes_cons, if_pos hc]
      exact ih prev
    · rw [collapseSlashes_cons, if_neg hc, noRun_cons]
      have hcond : ¬(c = '/' ∧ prev ≠ some ':' ∧
          (collapseSlashes (some c) rest).head? = some '/') := by
        intro ⟨h1, h2, h3⟩
        have hr : rest.head? ≠ some '/' := by
          intro hh
          exact hc ⟨h1, h2, hh⟩
        exact collapseSlashes_head_ne_slash (some c) rest hr h3
      rw [if_neg hcond]
      exact ih (some c)

/-- collapseSlashes is idempotent. -/
theorem collapseSlashes_idem (prev : Option Char) (l : List Char) :
    collapseSlashes prev (collapseSlashes prev l) = collapseSlashes prev l :=
  collapseSlashes_of_noRun _ prev (noRun_collapseSlashes l prev)

end Pypco

namespace Pypco

/-- Splitting collapseSlashes at a non-slash character: the scan of the part
before the character and the scan of the part after it are independent, the
latter starting with the character as preceding context. -/
theorem collapseSlashes_append (c : Char) (hc : c ≠ '/') (ys : List Char) :
    ∀ (xs : List Char) (prev : Option Char),
    collapseSlashes prev (xs ++ c :: ys) =
      collapseSlashes prev (xs ++ [c]) ++ collapseSlashes (some c) ys := by
  intro xs
  induction xs with
  | nil =>
    intro prev
    simp [collapseSlashes_cons, collapseSlashes_nil, hc]
  | cons x xs' ih =>
    intro prev
    have hh : (xs' ++ c :: ys).head? = (xs' ++ [c]).head? := by
      cases xs' <;> simp
    by_cases h : x = '/' ∧ prev ≠ some ':' ∧ (xs' ++ c :: ys).head? = some '/'
    · have h2 : x = '/' ∧ prev ≠ some ':' ∧ (xs' ++ [c]).head? = some '/' :=
        ⟨h.1, h.2.1, by rw [← hh]; exact h.2.2⟩
      rw [List.cons_append, collapseSlashes_cons, if_pos h, ih prev,
        List.cons_append, collapseSlashes_cons, if_pos h2]
    · have h2 : ¬(x = '/' ∧ prev ≠ some ':' ∧ (xs' ++ [c]).head? = some '/') := by
        intro hx
        exact h ⟨hx.1, hx.2.1, by rw [hh]; exact hx.2.2⟩
      rw [List.cons_append, collapseSlashes_cons, if_neg h, ih (some x),
        List.cons_append, collapseSlashes_cons, if_neg h2]
      rfl

/-- collapseSlashes keeps a final non-slash character in final position, and
everything before it comes from the input before it. -/
theorem collapseSlashes_snoc (c : Char) (hc : c ≠ '/') :
    ∀ (xs : List Char) (prev : Option Char),
    ∃ B : List Char, collapseSlashes prev (xs ++ [c]) = B ++ [c] ∧ ∀ x ∈ B, x ∈ xs := by
  intro xs
  induction xs with
  | nil =>
    intro prev
    exact ⟨[], by simp [collapseSlashes_cons, collapseSlashes_nil, hc], by simp⟩
  | cons x xs' ih =>
    intro prev
    by_cases h : x = '/' ∧ prev ≠ some ':' ∧ (xs' ++ [c]).head? = some '/'
    · obtain ⟨B, hB, hmem⟩ := ih prev
      refine ⟨B, ?_, fun y hy => List.mem_cons_of_mem x (hmem y hy)⟩
      rw [List.cons_append, collapseSlashes_cons, if_pos h, hB]
    · obtain ⟨B, hB, hmem⟩ := ih (some x)
      refine ⟨x :: B, ?_, ?_⟩
      · rw [List.cons_append, collapseSlashes_cons, if_neg h, hB]
        rfl
      · intro y hy
        rcases List.mem_cons.mp hy with rfl | hy'
        · exact List.mem_cons_self _ _
        · exact List.mem_cons_of_mem x (hmem y hy')

theorem apiBase_eq : apiBase = apiBaseCore ++ ['m'] := rfl

/-- Scanning past apiBase leaves it unchanged: its only slash run follows
the scheme colon. -/
theorem collapseSlashes_apiBase_append (v : List Char) :
    collapseSlashes none (apiBase ++ v) = apiBase ++ collapseSlashes (some 'm') v := by
  rw [apiBase_eq, List.append_assoc, List.singleton_append,
    collapseSlashes_append 'm' (by decide) v apiBaseCore none, ← apiBase_eq]
  congr 1

/-- A run of m + 2 slashes whose preceding character is not a colon, and
which is followed by a non-slash, collapses to exactly one slash. -/
theorem collapseSlashes_replicate (m : Nat) : ∀ (prev : Option Char) (ys : List Char),
    prev ≠ some ':' → ys.head? ≠ some '/' →
    collapseSlashes prev (List.replicate (m + 2) '/' ++ ys) =
      '/' :: collapseSlashes (some '/') ys := by
  induction m with
  | zero =>
    intro prev ys hprev hys
    show collapseSlashes prev ('/' :: '/' :: ys) = '/' :: collapseSlashes (some '/') ys
    rw [collapseSlashes_cons, if_pos ⟨rfl, hprev, by simp⟩,
      collapseSlashes_cons, if_neg (fun hx => hys hx.2.2)]
  | succ m ih =>
    intro prev ys hprev hys
    rw [List.replicate_succ, List.cons_append, collapseSlashes_cons,
      if_pos ⟨rfl, hprev, by simp [List.replicate_succ]⟩, ih prev ys hprev hys]

/-- Splitting a URL at its first question mark. -/
theorem query_split : ∀ (u : List Char), '?' ∈ u →
    ∃ p t, u = p ++ '?' :: t ∧ '?' ∉ p ∧ queryPart u = t := by
  intro u
  induction u with
  | nil => intro h; cases h
  | cons c u' ih =>
    intro h
    by_cases hc : c = '?'
    · subst hc
      refine ⟨[], u', rfl, by simp, ?_⟩
      simp [queryPart, List.dropWhile_cons]
    · have h' : '?' ∈ u' := by
        rcases List.mem_cons.mp h with h1 | h1
        · exact absurd h1.symm hc
        · exact h1
      obtain ⟨p, t, hu, hp, hq⟩ := ih h'
      refine ⟨c :: p, t, by rw [hu]; rfl, ?_, ?_⟩
      · intro hmem
        rcases List.mem_cons.mp hmem with h1 | h1
        · exact hc h1.symm
        · exact hp h1
      · simpa [queryPart, List.dropWhile_cons, hc] using hq

/-- Dropping up to the first question mark skips a question-mark-free
block. -/
theorem dropWhile_append_of_all (u : List Char) : ∀ A : List Char, '?' ∉ A →
    (A ++ u).dropWhile (fun c => c != '?') = u.dropWhile (fun c => c != '?') := by
  intro A
  induction A with
  | nil => intro _; rfl
  | cons a A' ih =>
    intro h
    have ha : a ≠ '?' := fun e => h (e ▸ List.mem_cons_self a A')
    rw [List.cons_append, List.dropWhile_cons, if_pos (by simp [ha])]
    exact ih (fun hm => h (List.mem_cons_of_mem a hm))

/-- Dropping up to the first question mark of a question-mark-free block
followed by a marked tail yields the marked tail. -/
theorem dropWhile_append_mark (T : List Char) : ∀ B : List Char, '?' ∉ B →
    (B ++ '?' :: T).dropWhile (fun c => c != '?') = '?' :: T := by
  intro B
  induction B with
  | nil => intro _; simp [List.dropWhile_cons]
  | cons b B' ih =>
    intro h
    have hb : b ≠ '?' := fun e => h (e ▸ List.mem_cons_self b B')
    rw [List.cons_append, List.dropWhile_cons, if_pos (by simp [hb])]
    exact ih (fun hm => h (List.mem_cons_of_mem b hm))

end Pypco

namespace Pypco

/-- C7: for every URL of a non-upload request, URL normalization yields a
URL starting with the configured base URL, the result contains no remaining
run of two or more slashes whose first slash is not immediately preceded by
a colon, and any such run of n greater or equal 2 slashes is collapsed to
exactly one slash. -/
theorem c7_url_normalized (u : List Char) :
    apiBase <+: normalizeUrl u
    ∧ noRun none (normalizeUrl u) = true
    ∧ (∀ n, 2 ≤ n → ∀ (prev : Option Char) (ys : List Char), prev ≠ some ':' →
        ys.head? ≠ some '/' →
        subnCollapse prev (List.replicate n '/' ++ ys) =
          '/' :: subnCollapse (some '/') ys) := by
  refine ⟨?_, ?_, ?_⟩
  · rw [normalizeUrl, subnCollapse_eq]
    by_cases hp : apiBase.isPrefixOf u
    · rw [if_pos hp]
      obtain ⟨v, rfl⟩ : apiBase <+: u := List.isPrefixOf_iff_prefix.mp hp
      rw [collapseSlashes_apiBase_append]
      exact ⟨_, rfl⟩
    · rw [if_neg hp, collapseSlashes_apiBase_append]
      exact ⟨_, rfl⟩
  · rw [normalizeUrl, subnCollapse_eq]
    exact noRun_collapseSlashes _ none
  · intro n hn prev ys hprev hys
    obtain ⟨m, rfl⟩ : ∃ m, n = m + 2 := ⟨n - 2, by omega⟩
    rw [subnCollapse_eq, subnCollapse_eq, collapseSlashes_replicate m prev ys hprev hys]

/-- Witness for C7 at a concrete relative URL and a concrete slash run. -/
theorem c7_url_normalized_witness :
    apiBase <+: normalizeUrl uW7
    ∧ subnCollapse none (List.replicate 3 '/' ++ ['a']) =
        '/' :: subnCollapse (some '/') ['a'] :=
  ⟨(c7_url_normalized uW7).1,
   (c7_url_normalized uW7).2.2 3 (by decide) none ['a'] (by decide) (by decide)⟩

/-- C8 is false as stated: normalization collapses slash runs inside the
query string too.  On this URL the characters after the first question mark
change from a=//b to a=/b. -/
theorem c8_counterexample :
    '?' ∈ uC8 ∧ queryPart (normalizeUrl uC8) ≠ queryPart uC8 := by
  constructor
  · decide
  · rw [normalizeUrl, subnCollapse_eq]
    decide

/-- C8 amended: normalization applies the same slash collapsing to the
query string; the characters after the first question mark are unchanged
exactly in case the slash-collapsing substitution leaves them unchanged,
in particular whenever the query string contains no run of two or more
consecutive slashes. -/
theorem c8_query_preserved (u : List Char) (hmem : '?' ∈ u)
    (hfix : subnCollapse (some '?') (queryPart u) = queryPart u) :
    queryPart (normalizeUrl u) = queryPart u := by
  have hq : '?' ∉ apiBase := by decide
  set u1 := if apiBase.isPrefixOf u then u else apiBase ++ u with hu1
  have hqu1 : queryPart u1 = queryPart u := by
    rw [hu1]
    by_cases hp : apiBase.isPrefixOf u
    · rw [if_pos hp]
    · rw [if_neg hp, queryPart, queryPart, dropWhile_append_of_all u apiBase hq]
  have hmem1 : '?' ∈ u1 := by
    rw [hu1]
    by_cases hp : apiBase.isPrefixOf u
    · rw [if_pos hp]; exact hmem
    · rw [if_neg hp]; exact List.mem_append_right _ hmem
  obtain ⟨p, t, hsplit, hpnot, hqp⟩ := query_split u1 hmem1
  have ht : t = queryPart u := by rw [← hqp, hqu1]
  have hn : normalizeUrl u = collapseSlashes none (p ++ '?' :: t) := by
    rw [normalizeUrl, subnCollapse_eq, ← hu1, hsplit]
  rw [hn, collapseSlashes_append '?' (by decide) t p none]
  obtain ⟨B, hB, hBmem⟩ := collapseSlashes_snoc '?' (by decide) p none
  rw [hB]
  have hfix2 : collapseSlashes (some '?') t = t := by
    rw [ht, ← subnCollapse_eq]
    exact hfix
  rw [hfix2]
  have hBq : '?' ∉ B := fun hm => hpnot (hBmem '?' hm)
  rw [List.append_assoc, List.singleton_append, queryPart,
    dropWhile_append_mark t B hBq, List.tail_cons]
  exact ht

/-- Witness for C8 amended at a concrete URL with a slash-free query. -/
theorem c8_query_preserved_witness : queryPart (normalizeUrl uW8) = queryPart uW8 :=
  c8_query_preserved uW8 (by decide) (by rw [subnCollapse_eq]; decide)

/-- C9: normalization is idempotent under the configured default base URL,
and on URLs already prefixed with the base URL it performs nothing beyond
the slash-collapsing substitution. -/
theorem c9_idempotent (u : List Char) :
    normalizeUrl (normalizeUrl u) = normalizeUrl u
    ∧ (apiBase.isPrefixOf u = true → normalizeUrl u = subnCollapse none u) := by
  constructor
  · have hw : ∃ w, normalizeUrl u = apiBase ++ w := by
      rw [normalizeUrl, subnCollapse_eq]
      by_cases hp : apiBase.isPrefixOf u
      · rw [if_pos hp]
        obtain ⟨v, rfl⟩ : apiBase <+: u := List.isPrefixOf_iff_prefix.mp hp
        exact ⟨_, collapseSlashes_apiBase_append v⟩
      · rw [if_neg hp]
        exact ⟨_, collapseSlashes_apiBase_append u⟩
    obtain ⟨w, hw⟩ := hw
    have hpre : apiBase.isPrefixOf (normalizeUrl u) = true := by
      rw [hw]
      exact List.isPrefixOf_iff_prefix.mpr ⟨w, rfl⟩
    conv_lhs => rw [normalizeUrl, if_pos hpre]
    rw [normalizeUrl, subnCollapse_eq, subnCollapse_eq]
    exact collapseSlashes_idem none _
  · intro hp
    rw [normalizeUrl, if_pos hp]

/-- Witness for C9 at concrete URLs. -/
theorem c9_idempotent_witness :
    normalizeUrl (normalizeUrl uC8) = normalizeUrl uC8
    ∧ normalizeUrl apiBase = subnCollapse none apiBase :=
  ⟨(c9_idempotent uC8).1, (c9_idempotent apiBase).2 (by decide)⟩

end Pypco

namespace Pypco

/-- Success run of the timeout-managed loop, generalized over the starting
value of timeout_count: k timeouts that never hit the ceiling followed by a
success return the success after exactly k + 1 transport invocations. -/
theorem doTimeout_success (timeoutRetries : Int) (url : String)
    (attempts : Nat → Attempt) (r : Response) :
    ∀ (k fuel count : Nat), k + 1 ≤ fuel →
    (∀ i, i < k → attempts (count + i) = Attempt.timeout) →
    (∀ j, 1 ≤ j → j ≤ k → ((count + j : Nat) : Int) ≠ timeoutRetries) →
    attempts (count + k) = Attempt.ok r →
    doTimeoutManagedRequest timeoutRetries url attempts fuel count = some (.ok r, k + 1) := by
  intro k
  induction k with
  | zero =>
    intro fuel count hfuel _ _ hok
    obtain ⟨f, rfl⟩ : ∃ f, fuel = f + 1 := ⟨fuel - 1, by omega⟩
    have hok2 : attempts count = Attempt.ok r := by simpa using hok
    simp [doTimeoutManagedRequest, hok2]
  | succ k ih =>
    intro fuel count hfuel htime hne hok
    obtain ⟨f, rfl⟩ : ∃ f, fuel = f + 1 := ⟨fuel - 1, by omega⟩
    have ht0 : attempts count = Attempt.timeout := by simpa using htime 0 (by omega)
    have hne1 : ¬(((count + 1 : Nat) : Int) = timeoutRetries) := hne 1 (by omega) (by omega)
    have hrec := ih f (count + 1) (by omega)
      (fun i hi => by
        rw [show count + 1 + i = count + (i + 1) from by omega]
        exact htime (i + 1) (by omega))
      (fun j hj1 hj2 => by
        rw [show count + 1 + j = count + (j + 1) from by omega]
        exact hne (j + 1) (by omega) (by omega))
      (by
        rw [show count + 1 + k = count + (k + 1) from by omega]
        exact hok)
    simp only [doTimeoutManagedRequest, ht0]
    rw [if_neg hne1, hrec]

/-- Failure run of the timeout-managed loop, generalized over the starting
value of timeout_count: when the next m attempts all time out and the
ceiling is reached exactly after those m timeouts, the loop raises after
exactly m transport invocations. -/
theorem doTimeout_fail (timeoutRetries : Int) (url : String)
    (attempts : Nat → Attempt) :
    ∀ (m fuel count : Nat), 1 ≤ m → m ≤ fuel →
    ((count + m : Nat) : Int) = timeoutRetries →
    (∀ i, i < m → attempts (count + i) = Attempt.timeout) →
    doTimeoutManagedRequest timeoutRetries url attempts fuel count =
      some (.error ⟨url, count + m⟩, m) := by
  intro m
  induction m with
  | zero =>
    intro fuel count h1 _ _ _
    exfalso
    omega
  | succ m ih =>
    intro fuel count h1 hfuel heq htime
    obtain ⟨f, rfl⟩ : ∃ f, fuel = f + 1 := ⟨fuel - 1, by omega⟩
    have ht0 : attempts count = Attempt.timeout := by simpa using htime 0 (by omega)
    by_cases hm : m = 0
    · subst hm
      have heq1 : ((count + 1 : Nat) : Int) = timeoutRetries := by simpa using heq
      simp [doTimeoutManagedRequest, ht0, heq1]
    · have hne1 : ¬(((count + 1 : Nat) : Int) = timeoutRetries) := by omega
      have hrec := ih f (count + 1) (by omega) (by omega)
        (by rw [show count + 1 + m = count + (m + 1) from by omega]; exact heq)
        (fun i hi => by
          rw [show count + 1 + i = count + (i + 1) from by omega]
          exact htime (i + 1) (by omega))
      simp only [doTimeoutManagedRequest, ht0]
      rw [if_neg hne1, hrec]
      rw [show count + 1 + m = count + (m + 1) from by omega]

/-- C2: with a retry ceiling of at least 1, when the first k attempts time
out, k below the ceiling, and attempt k + 1 succeeds, the wrapper returns
that response after exactly k + 1 transport invocations; and when
timeout_retries consecutive attempts time out, it raises
PCORequestTimeoutException carrying the URL and the attempt count after
exactly timeout_retries transport invocations. -/
theorem c2_timeout_retry (timeoutRetries : Int) (url : String)
    (attempts : Nat → Attempt) (r : Response) (k fuel : Nat)
    (hret : 1 ≤ timeoutRetries) :
    ((∀ i, i < k → attempts i = Attempt.timeout) → ((k : Nat) : Int) < timeoutRetries →
      attempts k = Attempt.ok r → k + 1 ≤ fuel →
      doTimeoutManagedRequest timeoutRetries url attempts fuel 0 = some (.ok r, k + 1))
    ∧ ((∀ i, i < timeoutRetries.toNat → attempts i = Attempt.timeout) →
      timeoutRetries.toNat ≤ fuel →
      doTimeoutManagedRequest timeoutRetries url attempts fuel 0 =
        some (.error ⟨url, timeoutRetries.toNat⟩, timeoutRetries.toNat)) := by
  constructor
  · intro htime hk hok hfuel
    have h := doTimeout_success timeoutRetries url attempts r k fuel 0 hfuel
      (fun i hi => by simpa using htime i hi)
      (fun j hj1 hj2 => by
        have : ((j : Nat) : Int) < timeoutRetries := by omega
        omega)
      (by simpa using hok)
    exact h
  · intro htime hfuel
    have h1 : 1 ≤ timeoutRetries.toNat := by omega
    have h := doTimeout_fail timeoutRetries url attempts timeoutRetries.toNat fuel 0 h1 hfuel
      (by omega)
      (fun i hi => by simpa using htime i hi)
    simpa using h

/-- Witness for C2: with ceiling 3, two timeouts and a success return the
response on the third invocation; three timeouts raise with the URL and
attempt count 3. -/
theorem c2_timeout_retry_witness :
    doTimeoutManagedRequest 3 "u" attemptsW 3 0 = some (.ok respOk, 3)
    ∧ doTimeoutManagedRequest 3 "u" attemptsT 3 0 = some (.error ⟨"u", 3⟩, 3) := by
  constructor
  · exact (c2_timeout_retry 3 "u" attemptsW respOk 2 3 (by decide)).1
      (by decide) (by decide) (by decide) (by decide)
  · exact (c2_timeout_retry 3 "u" attemptsT respOk 2 3 (by decide)).2
      (by decide) (by decide)

/-- C10: with timeout_retries zero or negative, the equality test
timeout_count == timeout_retries never fires, since the counter takes the
values 1, 2, 3, and so on; on an unbroken sequence of timeouts the loop
neither returns nor raises however much fuel it is given. -/
theorem c10_unbounded_when_nonpositive (timeoutRetries : Int) (url : String)
    (attempts : Nat → Attempt) (hret : timeoutRetries ≤ 0)
    (hall : ∀ i, attempts i = Attempt.timeout) :
    ∀ fuel count, doTimeoutManagedRequest timeoutRetries url attempts fuel count = none := by
  intro fuel
  induction fuel with
  | zero => intro count; rfl
  | succ f ih =>
    intro count
    have hne : ¬(((count + 1 : Nat) : Int) = timeoutRetries) := by omega
    simp only [doTimeoutManagedRequest, hall count]
    rw [if_neg hne, ih (count + 1)]

/-- Witness for C10 with ceiling 0 and fuel 5. -/
theorem c10_unbounded_when_nonpositive_witness :
    doTimeoutManagedRequest 0 "u" attemptsT 5 0 = none :=
  c10_unbounded_when_nonpositive 0 "u" attemptsT (by decide) (fun _ => rfl) 5 0

/-- Rate-limit loop, generalized over the starting call index: k
consecutive 429 responses followed by a non-429 one return that response,
with the slept durations read from the Retry-After headers in order. -/
theorem doRatelimit_run (responses : Nat → Response) :
    ∀ (k fuel s : Nat), k + 1 ≤ fuel →
    (∀ i, i < k → (responses (s + i)).status = 429) →
    (responses (s + k)).status ≠ 429 →
    doRatelimitManagedRequest responses fuel s =
      some (responses (s + k),
        (List.range k).map (fun i => (responses (s + i)).retryAfter)) := by
  intro k
  induction k with
  | zero =>
    intro fuel s hfuel _ hstop
    obtain ⟨f, rfl⟩ : ∃ f, fuel = f + 1 := ⟨fuel - 1, by omega⟩
    have hs : ¬((responses s).status = 429) := by simpa using hstop
    simp [doRatelimitManagedRequest, hs]
  | succ k ih =>
    intro fuel s hfuel h429 hstop
    obtain ⟨f, rfl⟩ : ∃ f, fuel = f + 1 := ⟨fuel - 1, by omega⟩
    have h0 : (responses s).status = 429 := by simpa using h429 0 (by omega)
    have hrec := ih f (s + 1) (by omega)
      (fun i hi => by
        rw [show s + 1 + i = s + (i + 1) from by omega]
        exact h429 (i + 1) (by omega))
      (by rw [show s + 1 + k = s + (k + 1) from by omega]; exact hstop)
    simp only [doRatelimitManagedRequest]
    rw [if_pos h0, hrec]
    have e1 : s + 1 + k = s + (k + 1) := by omega
    have e2 : (List.range (k + 1)).map (fun i => (responses (s + i)).retryAfter)
        = (responses s).retryAfter ::
            (List.range k).map (fun i => (responses (s + 1 + i)).retryAfter) := by
      rw [List.range_succ_eq_map, List.map_cons, List.map_map, Nat.add_zero]
      congr 1
      apply List.map_congr_left
      intro a _
      simp only [Function.comp_apply]
      rw [show s + 1 + a = s + (a + 1) from by omega]
    rw [e1, e2]

/-- C3: the rate-limit wrapper recovers any finite number of consecutive
429 responses, sleeping for the Retry-After value of each, with no retry
ceiling and without raising, and returns the first non-429 response, of
whatever status, unchanged. -/
theorem c3_ratelimit (responses : Nat → Response) (k fuel : Nat)
    (h429 : ∀ i, i < k → (responses i).status = 429)
    (hstop : (responses k).status ≠ 429)
    (hfuel : k + 1 ≤ fuel) :
    doRatelimitManagedRequest responses fuel 0 =
      some (responses k, (List.range k).map (fun i => (responses i).retryAfter)) := by
  have h := doRatelimit_run responses k fuel 0 hfuel
    (fun i hi => by simpa using h429 i hi) (by simpa using hstop)
  simpa using h

/-- Witness for C3: three 429 responses with Retry-After 2, then a 200
response; the 200 payload is returned after sleeping 2 three times. -/
theorem c3_ratelimit_witness :
    doRatelimitManagedRequest responsesW 4 0 = some (respOk, [2, 2, 2]) := by
  have h := c3_ratelimit responsesW 3 4 (by decide) (by decide) (by decide)
  rw [h]
  rfl

/-- C1 on the code as written: the catch-all except clause of
request_response wraps a PCORequestTimeoutException from the timeout layer
into PCOUnexpectedRequestException instead of passing it through; a 404
response does raise PCORequestException carrying status 404, a message and
the raw body. -/
theorem c1_interpreter_eval :
    request_response (UrlLayerOutcome.exc (LowerExc.timeoutExceeded ⟨"u", 3⟩))
      = .error (.unexpected (excMessage (LowerExc.timeoutExceeded ⟨"u", 3⟩)))
    ∧ (∀ e : PCORequestTimeoutException,
        request_response (UrlLayerOutcome.exc (LowerExc.timeoutExceeded e))
          ≠ .error (.timeoutExceeded e))
    ∧ request_response (UrlLayerOutcome.ok resp404)
      = .error (.request 404 (httpErrorMessage 404) "not found") := by
  refine ⟨rfl, ?_, by rfl⟩
  intro e
  simp [request_response]

end Pypco

namespace Pypco

/-- C4 on the code as written: although the page meta carries both
can_include and parent, the record built by iterate has an empty meta dict,
because the two copying statements are effect-free annotated assignments. -/
theorem c4_meta_eval :
    pageC4.metaCanInclude = some "emails"
    ∧ pageC4.metaParent = some "Organization"
    ∧ (processRecord pageC4 resPlain).rmeta = [] :=
  ⟨rfl, rfl, rfl⟩

/-- C5: the included list built by iterate for an item equals the spec
description: for each relationship reference in relationship-then-list
order, the page-level includes matching it by exact type and id equality,
in page order; consequently an include appears in the list exactly in case
it belongs to the page includes and matches some declared reference. -/
theorem c5_includes (page : Page) (cur : Resource) :
    (processRecord page cur).rincluded = specIncluded page cur
    ∧ ∀ inc, (inc ∈ (processRecord page cur).rincluded ↔
        inc ∈ page.included ∧ ∃ ref, ref ∈ itemRefs cur ∧ refMatches ref inc = true) := by
  have key : ∀ rd, includesFor page rd =
      (refsOf rd).flatMap (fun ref => page.included.filter (fun inc => refMatches ref inc)) := by
    intro rd
    cases rd with
    | null => rfl
    | single ref => simp [includesFor, refsOf]
    | many refs => rfl
  have h1 : (processRecord page cur).rincluded = specIncluded page cur := by
    cases hrel : cur.relationships with
    | none => simp [processRecord, specIncluded, itemRefs, hrel]
    | some rels =>
      simp only [processRecord, specIncluded, itemRefs, hrel, key, List.flatMap_assoc]
  refine ⟨h1, ?_⟩
  intro inc
  rw [h1]
  simp only [specIncluded, List.mem_flatMap, List.mem_filter]
  constructor
  · rintro ⟨ref, href, hmem, hmatch⟩
    exact ⟨hmem, ref, href, hmatch⟩
  · rintro ⟨hmem, ref, href, hmatch⟩
    exact ⟨ref, href, hmem, hmatch⟩

/-- C6: when the page at the current offset has a next link and the page at
the advanced offset does not, the iterator yields all records of the first
page in order, then all records of the second page in order, using exactly
two GET requests, for any sufficient fuel; when the first page has no next
link, it stops after that page with exactly one request. -/
theorem c6_pagination (server : Nat → Page) (offset perPage fuel : Nat)
    (hfuel : 2 ≤ fuel) :
    ((server offset).linksNext = true → (server (offset + perPage)).linksNext = false →
      iterateAux server perPage fuel offset =
        ((server offset).data.map (processRecord (server offset)) ++
          (server (offset + perPage)).data.map (processRecord (server (offset + perPage))), 2))
    ∧ ((server offset).linksNext = false →
      iterateAux server perPage fuel offset =
        ((server offset).data.map (processRecord (server offset)), 1)) := by
  obtain ⟨f, rfl⟩ : ∃ f, fuel = f + 1 + 1 := ⟨fuel - 2, by omega⟩
  constructor
  · intro h1 h2
    simp [iterateAux, h1, h2]
  · intro h1
    simp [iterateAux, h1]

/-- Witness for C6 on the concrete two-page server. -/
theorem c6_pagination_witness :
    iterateAux serverC6 25 2 0 =
      (page1C6.data.map (processRecord page1C6) ++
        page2C6.data.map (processRecord page2C6), 2) := by
  have h := (c6_pagination serverC6 0 25 2 (by decide)).1 (by decide) (by decide)
  rw [h]
  rfl

end Pypco
